import Mathlib

/-!
Verification of the anyrun-cliphist clipboard-history plugin core
(translated from src/lib.rs).

The program loads a clipboard history from a cliphist database, deduplicates
it, ranks entries against a fuzzy query, and resolves a selected id back to
the original content. External collaborators (the nut key/value database
cursor, the filesystem, the RON parser, and the fuzzy_matcher crate) are
modelled as parameters: the database cursor becomes the list of raw values it
yields, the config file read becomes its outcome, and the skim fuzzy scorer
becomes an abstract scoring function. Rust panics are modelled by Option
(none = panic). Strings are modelled as lists of Unicode scalar values
(List Char); where the Rust code manipulates byte positions, byte sizes are
computed explicitly with Char.utf8Size.
-/

namespace Cliphist

/-- Clipboard content: a Rust String, as its list of Unicode scalar values. -/
abbrev Content := List Char

/-- The plugin configuration (struct Config in src/lib.rs). The Rust field
named after the activation marker is called prefixStr here because its Rust
name is a Lean keyword. -/
structure Config where
  max_entries : Option Nat
  db_path : Option Content
  prefixStr : Option Content
  deriving DecidableEq, Repr

/-- Default::default() for Config in src/lib.rs: max_entries Some(10),
db_path None, empty activation marker. -/
def Config.defaultConfig : Config :=
  { max_entries := some 10, db_path := none, prefixStr := some [] }

/-- load_config from src/lib.rs. The filesystem read and the RON parse are
external; their combined outcome is the input: none models a failed
fs::read_to_string, some none models a file that was read but failed to
parse, some (some c) models a successfully parsed configuration c. Both
failure cases fall back to Config::default(). -/
def load_config : Option (Option Config) → Config
  | some (some c) => c
  | some none => Config.defaultConfig
  | none => Config.defaultConfig

/-- The plugin state (struct State in src/lib.rs): the result cap, the
activation marker, and the loaded history of (id, content) pairs. -/
structure State where
  max_entries : Nat
  prefixStr : Content
  history : List (Nat × Content)

/-- The cursor walk of get_clipboard_history (src/lib.rs lines 102-122):
each raw database value either decodes as UTF-8 (some content) or is skipped
(none models both a missing value and a failed String::from_utf8); the id
counter increments only for entries that are kept. -/
def enumValid : Nat → List (Option Content) → List (Nat × Content)
  | _, [] => []
  | id, none :: rest => enumValid id rest
  | id, some s :: rest => (id, s) :: enumValid (id + 1) rest

/-- Itertools unique_by on the content component (src/lib.rs line 124):
keeps the first occurrence of each content string, in order. -/
def uniqueByContent : List Content → List (Nat × Content) → List (Nat × Content)
  | _, [] => []
  | seen, (id, c) :: rest =>
    if c ∈ seen then uniqueByContent seen rest
    else (id, c) :: uniqueByContent (c :: seen) rest

/-- get_clipboard_history from src/lib.rs (success path): enumerate the raw
cursor values oldest-first with ids 0,1,2,..., reverse to most-recent-first,
then deduplicate by content keeping the first occurrence. -/
def get_clipboard_history (raw : List (Option Content)) : List (Nat × Content) :=
  uniqueByContent [] (enumValid 0 raw).reverse

/-- Rust str::split on the newline character, as used by preview. -/
def splitOnNL : Content → List Content
  | [] => [[]]
  | c :: rest =>
    if c = '\n' then [] :: splitOnNL rest
    else
      match splitOnNL rest with
      | [] => [c] :: []
      | p :: ps => (c :: p) :: ps

/-- Rust str::trim: drop whitespace from both ends. Char.isWhitespace models
char::is_whitespace. -/
def trim (s : Content) : Content :=
  ((s.dropWhile Char.isWhitespace).reverse.dropWhile Char.isWhitespace).reverse

/-- Itertools join with a single space, as used by preview. -/
def joinSpace : List Content → Content
  | [] => []
  | [p] => p
  | p :: ps => p ++ ' ' :: joinSpace ps

/-- Rust String::truncate semantics at the level of Unicode scalar values:
truncate to at most n bytes. If the whole string fits in n bytes it is
unchanged; if byte position n is a character boundary the string is cut
there; otherwise Rust panics (modelled as none). -/
def byteTruncate : Nat → Content → Option Content
  | _, [] => some []
  | 0, _ :: _ => some []
  | n + 1, c :: cs =>
    if c.utf8Size ≤ n + 1 then
      (byteTruncate (n + 1 - c.utf8Size) cs).map (fun t => c :: t)
    else none

/-- preview from src/lib.rs lines 193-197: split the content on newlines,
trim each piece, join with single spaces, then String::truncate(100)
(a byte-based truncation that panics off a character boundary). -/
def preview (s : Content) : Option Content :=
  byteTruncate 100 (joinSpace ((splitOnNL s).map trim))

/-- One entry handed back to the host (struct Match of the anyrun plugin
API, restricted to the fields this plugin fills meaningfully). -/
structure MatchResult where
  title : Content
  id : Nat
  deriving DecidableEq, Repr

/-- The final map of get_matches over selected entries: build each Match by
computing its preview title. A preview panic propagates (none). -/
def toMatches : List (Nat × Content) → Option (List MatchResult)
  | [] => some []
  | (id, c) :: rest =>
    match preview c, toMatches rest with
    | some t, some ms => some ({ title := t, id := id } :: ms)
    | _, _ => none

/-- Comparator of the sort in get_matches (src/lib.rs line 175):
sort_by(|a, b| b.2.cmp(&a.2)), i.e. score descending. -/
def scoreGe (a b : Nat × Content × Int) : Prop := b.2.2 ≤ a.2.2

instance : DecidableRel scoreGe :=
  fun a b => inferInstanceAs (Decidable (b.2.2 ≤ a.2.2))

instance : IsTotal (Nat × Content × Int) scoreGe :=
  ⟨fun a b => le_total b.2.2 a.2.2⟩

instance : IsTrans (Nat × Content × Int) scoreGe :=
  ⟨fun _ _ _ h1 h2 => le_trans h2 h1⟩

/-- The filter_map of get_matches (src/lib.rs lines 163-174): score every
history entry with the fuzzy scorer (unwrap_or(0) on a failed match) and keep
those with a strictly positive score, attaching the score. The scorer
(SkimMatcherV2 of the fuzzy_matcher crate, smart-case) is external and is a
parameter: it takes the entry content and the cleaned query and returns an
optional score. -/
def rankEntries (scorer : Content → Content → Option Int) (cleaned : Content)
    (history : List (Nat × Content)) : List (Nat × Content × Int) :=
  history.filterMap (fun e =>
    if 0 < (scorer e.2 cleaned).getD 0 then some (e.1, e.2, (scorer e.2 cleaned).getD 0)
    else none)

/-- The scored entries, stably sorted by score descending (src/lib.rs line
175). Rust Vec::sort_by is a stable sort; List.insertionSort is the stable
sort for the same total preorder, hence produces the same output. -/
def sortedEntries (scorer : Content → Content → Option Int) (cleaned : Content)
    (history : List (Nat × Content)) : List (Nat × Content × Int) :=
  (rankEntries scorer cleaned history).insertionSort scoreGe

/-- The sorted scored entries truncated to the result cap (src/lib.rs line
176). -/
def topEntries (scorer : Content → Content → Option Int) (cleaned : Content)
    (history : List (Nat × Content)) (limit : Nat) : List (Nat × Content × Int) :=
  (sortedEntries scorer cleaned history).take limit

/-- get_matches from src/lib.rs lines 140-191. If the input does not start
with the activation marker, return no matches. Otherwise strip the marker;
on an empty remainder take the first max_entries history entries, where the
Rust slice state.history[..max_entries] panics (none) when max_entries
exceeds the history length; on a non-empty remainder score, filter, stably
sort descending, truncate, and build the matches. -/
def get_matches (scorer : Content → Content → Option Int) (input : Content)
    (s : State) : Option (List MatchResult) :=
  if s.prefixStr.isPrefixOf input then
    let cleaned := input.drop s.prefixStr.length
    if cleaned.isEmpty then
      if s.max_entries ≤ s.history.length then
        toMatches (s.history.take s.max_entries)
      else none
    else
      toMatches ((topEntries scorer cleaned s.history s.max_entries).map
        (fun x => (x.1, x.2.1)))
  else some []

/-- handler from src/lib.rs lines 199-213: find the first history entry whose
id equals the selected id and hand its content bytes to the copy side effect;
the unwrap on a missing id is a panic (none). -/
def handler (selectionId : Nat) (s : State) : Option Content :=
  (s.history.find? (fun e => e.1 == selectionId)).map Prod.snd

/-! Helper lemmas about the load pipeline. -/

theorem enumValid_le_fst : ∀ (raw : List (Option Content)) (n : Nat),
    ∀ e ∈ enumValid n raw, n ≤ e.1
  | [], _ => by simp [enumValid]
  | none :: rest, n => by
    simpa [enumValid] using enumValid_le_fst rest n
  | some s :: rest, n => by
    intro e he
    simp only [enumValid, List.mem_cons] at he
    rcases he with rfl | he
    · exact le_refl n
    · exact le_trans (Nat.le_succ n) (enumValid_le_fst rest (n + 1) e he)

theorem enumValid_pairwise : ∀ (raw : List (Option Content)) (n : Nat),
    (enumValid n raw).Pairwise (fun a b => a.1 < b.1)
  | [], _ => by simp [enumValid]
  | none :: rest, n => by simpa [enumValid] using enumValid_pairwise rest n
  | some s :: rest, n => by
    simp only [enumValid, List.pairwise_cons]
    refine ⟨fun e he => ?_, enumValid_pairwise rest (n + 1)⟩
    exact lt_of_lt_of_le (Nat.lt_succ_self n) (enumValid_le_fst rest (n + 1) e he)

theorem uniqueByContent_sublist : ∀ (l : List (Nat × Content)) (seen : List Content),
    (uniqueByContent seen l).Sublist l
  | [], _ => by simp [uniqueByContent]
  | (id, c) :: rest, seen => by
    simp only [uniqueByContent]
    split
    · exact (uniqueByContent_sublist rest seen).cons _
    · exact (uniqueByContent_sublist rest (c :: seen)).cons₂ _

theorem ids_pairwise_gt (raw : List (Option Content)) :
    ((get_clipboard_history raw).map Prod.fst).Pairwise (· > ·) := by
  have h1 : (enumValid 0 raw).Pairwise (fun a b => a.1 < b.1) := enumValid_pairwise raw 0
  have h2 : ((enumValid 0 raw).reverse).Pairwise (fun a b => b.1 < a.1) := by
    rw [List.pairwise_reverse]
    exact h1
  have h3 : (get_clipboard_history raw).Pairwise (fun a b => b.1 < a.1) :=
    h2.sublist (uniqueByContent_sublist (enumValid 0 raw).reverse [])
  rw [List.pairwise_map]
  exact h3

/-- Claim C1, as stated, is false: ids are assigned during the oldest-first
cursor walk, before the reverse and the deduplication, so on the raw history
c, b, a, b (oldest first) the loaded store carries ids 3, 2, 0 — not the
dense increasing sequence 0, 1, 2 the claim requires. -/
theorem claim_C1_counterexample :
    (get_clipboard_history [some ['c'], some ['b'], some ['a'], some ['b']]).map Prod.fst
      = [3, 2, 0] ∧
    (get_clipboard_history [some ['c'], some ['b'], some ['a'], some ['b']]).map Prod.fst
      ≠ List.range
        (get_clipboard_history [some ['c'], some ['b'], some ['a'], some ['b']]).length := by
  decide

/-- Claim C1 (amended): after load (get_clipboard_history), the ids of the
store entries are strictly decreasing with the index — each entry keeps the
id assigned at its oldest-first cursor position, so after the reverse the ids
descend, and deduplication can only leave gaps. -/
theorem claim_C1_ids_strictly_decreasing (raw : List (Option Content)) :
    ((get_clipboard_history raw).map Prod.fst).Pairwise (· > ·) :=
  ids_pairwise_gt raw

/-- Claim C10: in every store produced by load (get_clipboard_history), the
entry ids are pairwise distinct, so a lookup by id is unambiguous. -/
theorem claim_C10_ids_pairwise_distinct (raw : List (Option Content)) :
    ((get_clipboard_history raw).map Prod.fst).Nodup :=
  (ids_pairwise_gt raw).imp (fun h => ne_of_gt h)

/-! Helper lemmas about deduplication. -/

theorem uniqueByContent_countP (c : Content) :
    ∀ (l : List (Nat × Content)) (seen : List Content),
      (uniqueByContent seen l).countP (fun e => e.2 == c) =
        if c ∈ seen then 0 else if c ∈ l.map Prod.snd then 1 else 0
  | [], seen => by simp [uniqueByContent]
  | (id, d) :: rest, seen => by
    simp only [uniqueByContent]
    by_cases hd : d ∈ seen
    · rw [if_pos hd, uniqueByContent_countP c rest seen]
      by_cases hc : c ∈ seen
      · simp [hc]
      · have hcd : ¬(c = d) := fun h => hc (h ▸ hd)
        have hmapc : c ∈ List.map Prod.snd ((id, d) :: rest) ↔
            c ∈ List.map Prod.snd rest := by simp [hcd]
        rw [if_congr hmapc rfl rfl]
    · rw [if_neg hd, List.countP_cons, uniqueByContent_countP c rest (d :: seen)]
      by_cases hc : c = d
      · subst hc
        simp [hd]
      · have hmapc : c ∈ List.map Prod.snd ((id, d) :: rest) ↔
            c ∈ List.map Prod.snd rest := by simp [hc]
        rw [if_congr hmapc rfl rfl]
        simp [hc, Ne.symm hc]

theorem uniqueByContent_find? (c : Content) :
    ∀ (l : List (Nat × Content)) (seen : List Content), c ∉ seen →
      (uniqueByContent seen l).find? (fun e => e.2 == c) =
        l.find? (fun e => e.2 == c)
  | [], seen, _ => by simp [uniqueByContent]
  | (id, d) :: rest, seen, hc => by
    simp only [uniqueByContent]
    by_cases hd : d ∈ seen
    · rw [if_pos hd]
      have hdc : ¬((id, d).2 == c) = true := by
        simp only [beq_iff_eq]
        exact fun h => hc (h ▸ hd)
      rw [List.find?_cons_of_neg (p := fun e => e.2 == c) (a := (id, d)) rest hdc]
      exact uniqueByContent_find? c rest seen hc
    · rw [if_neg hd]
      by_cases hdc : ((id, d).2 == c) = true
      · rw [List.find?_cons_of_pos (p := fun e => e.2 == c) (a := (id, d))
            (uniqueByContent (d :: seen) rest) hdc,
          List.find?_cons_of_pos (p := fun e => e.2 == c) (a := (id, d)) rest hdc]
      · rw [List.find?_cons_of_neg (p := fun e => e.2 == c) (a := (id, d))
            (uniqueByContent (d :: seen) rest) hdc,
          List.find?_cons_of_neg (p := fun e => e.2 == c) (a := (id, d)) rest hdc]
        apply uniqueByContent_find? c rest (d :: seen)
        intro h
        rcases List.mem_cons.mp h with h1 | h1
        · exact hdc (by simp [beq_iff_eq, h1])
        · exact hc h1

theorem find?_of_first {α : Type} (p : α → Bool) :
    ∀ (l : List α) (i : Nat) (hi : i < l.length),
      (∀ k (hk : k < i), p (l.get ⟨k, Nat.lt_trans hk hi⟩) = false) →
      p (l.get ⟨i, hi⟩) = true → l.find? p = some (l.get ⟨i, hi⟩)
  | [], i, hi => by simp at hi
  | x :: rest, 0, hi => fun _ hp => by
      have hp0 : p x = true := hp
      rw [List.find?_cons_of_pos rest hp0]
      rfl
  | x :: rest, i + 1, hi => fun hbefore hp => by
      have h0 : p x = false := hbefore 0 (Nat.succ_pos i)
      have h0' : ¬p x = true := by simp [h0]
      rw [List.find?_cons_of_neg rest h0']
      exact find?_of_first p rest i (Nat.lt_of_succ_lt_succ hi)
        (fun k hk => hbefore (k + 1) (Nat.succ_lt_succ hk)) hp

/-- Claim C5: if a most-recent-first raw sequence repeats a content string at
positions i and j with i < j (and i is the first position carrying it), then
the deduplicated store (uniqueByContent, src/lib.rs line 124) contains
exactly one entry with that content, namely the entry at position i — the
most recent occurrence is kept and older duplicates are dropped. -/
theorem claim_C5_dedup_keeps_most_recent (l : List (Nat × Content)) (i j : Nat)
    (hij : i < j) (hj : j < l.length)
    (hdup : (l.get ⟨i, Nat.lt_trans hij hj⟩).2 = (l.get ⟨j, hj⟩).2)
    (hfirst : ∀ k (hk : k < i),
      (l.get ⟨k, Nat.lt_trans hk (Nat.lt_trans hij hj)⟩).2 ≠
        (l.get ⟨i, Nat.lt_trans hij hj⟩).2) :
    (uniqueByContent [] l).countP
        (fun e => e.2 == (l.get ⟨i, Nat.lt_trans hij hj⟩).2) = 1 ∧
    (uniqueByContent [] l).find?
        (fun e => e.2 == (l.get ⟨i, Nat.lt_trans hij hj⟩).2) =
      some (l.get ⟨i, Nat.lt_trans hij hj⟩) := by
  constructor
  · have hmem : (l.get ⟨i, Nat.lt_trans hij hj⟩).2 ∈ l.map Prod.snd :=
      List.mem_map_of_mem Prod.snd (l.get_mem _ _)
    rw [uniqueByContent_countP _ l [], if_neg (List.not_mem_nil _), if_pos hmem]
  · rw [uniqueByContent_find? _ l [] (List.not_mem_nil _)]
    exact find?_of_first _ l i (Nat.lt_trans hij hj)
      (fun k hk => beq_eq_false_iff_ne.mpr (hfirst k hk))
      (beq_self_eq_true _)

theorem claim_C5_witness :
    (0 : Nat) < 2 ∧
    ((uniqueByContent [] [(0, ['b']), (1, ['a']), (2, ['b']), (3, ['c'])]).countP
        (fun e => e.2 == ['b']) = 1 ∧
      (uniqueByContent [] [(0, ['b']), (1, ['a']), (2, ['b']), (3, ['c'])]).find?
        (fun e => e.2 == ['b']) = some (0, ['b'])) :=
  ⟨by decide,
    claim_C5_dedup_keeps_most_recent
      [(0, ['b']), (1, ['a']), (2, ['b']), (3, ['c'])] 0 2
      (by decide) (by decide) (by decide)
      (fun k hk => absurd hk (Nat.not_lt_zero k))⟩

/-- Claim C2 is contradicted by the code: with the default limit of 10 and a
store holding a single entry, an empty query reaches the Rust slice
state.history[..state.max_entries], which is out of range and panics.
The slice bound is unchecked, so a limit greater than the store size does
not degrade gracefully. -/
theorem claim_C2_overlarge_limit_panics :
    get_matches (fun _ _ => none) []
      { max_entries := 10, prefixStr := [], history := [(0, ['a'])] } = none := by
  decide

set_option maxRecDepth 10000 in
/-- Claim C3 is contradicted by the code: preview truncates with Rust
String::truncate(100), which cuts at 100 bytes, not 100 characters, and
panics when byte 100 is not a character boundary. On 99 ASCII characters
followed by one two-byte character the normalized title is 101 bytes with
byte position 100 inside the final character, so preview panics. -/
theorem claim_C3_preview_panics_inside_multibyte :
    preview (List.replicate 99 'a' ++ ['é']) = none := by
  decide

/-! Helper lemmas about ranking and resolution. -/

theorem toMatches_mem : ∀ (es : List (Nat × Content)) (res : List MatchResult),
    toMatches es = some res → ∀ m ∈ res,
      ∃ e, e ∈ es ∧ e.1 = m.id ∧ preview e.2 = some m.title
  | [], res, h, m, hm => by
    simp only [toMatches, Option.some.injEq] at h
    subst h
    simp at hm
  | (id, c) :: rest, res, h, m, hm => by
    simp only [toMatches] at h
    cases hp : preview c with
    | none => rw [hp] at h; exact absurd h (by simp)
    | some t =>
      cases ht : toMatches rest with
      | none => rw [hp, ht] at h; exact absurd h (by simp)
      | some ms =>
        rw [hp, ht] at h
        simp only [Option.some.injEq] at h
        subst h
        rcases List.mem_cons.mp hm with rfl | hm2
        · exact ⟨(id, c), List.mem_cons_self _ _, rfl, hp⟩
        · obtain ⟨e, he, h1, h2⟩ := toMatches_mem rest ms ht m hm2
          exact ⟨e, List.mem_cons_of_mem _ he, h1, h2⟩

theorem rankEntries_mem (scorer : Content → Content → Option Int) (cleaned : Content)
    (history : List (Nat × Content)) (x : Nat × Content × Int)
    (hx : x ∈ rankEntries scorer cleaned history) :
    (x.1, x.2.1) ∈ history ∧ 0 < x.2.2 ∧
      x.2.2 = (scorer x.2.1 cleaned).getD 0 := by
  simp only [rankEntries, List.mem_filterMap] at hx
  obtain ⟨e, he, hfe⟩ := hx
  by_cases hs : 0 < (scorer e.2 cleaned).getD 0
  · rw [if_pos hs] at hfe
    obtain rfl : (e.1, e.2, (scorer e.2 cleaned).getD 0) = x := Option.some.inj hfe
    exact ⟨by simpa using he, hs, rfl⟩
  · rw [if_neg hs] at hfe
    exact absurd hfe (by simp)

theorem find?_nodup_ids : ∀ (l : List (Nat × Content)) (id : Nat) (c : Content),
    (l.map Prod.fst).Nodup → (id, c) ∈ l →
    l.find? (fun e => e.1 == id) = some (id, c)
  | [], _, _, _, hmem => absurd hmem (List.not_mem_nil _)
  | (i, d) :: rest, id, c, hnd, hmem => by
    have hnd' : i ∉ rest.map Prod.fst ∧ (rest.map Prod.fst).Nodup :=
      List.nodup_cons.mp (by simpa using hnd)
    rcases List.mem_cons.mp hmem with heq | hmem2
    · injection heq with h1 h2
      subst h1
      subst h2
      exact List.find?_cons_of_pos (p := fun e => e.1 == id) (a := (id, c)) rest
        (by simp)
    · have hne : ¬((i, d).1 == id) = true := by
        simp only [beq_iff_eq]
        intro h
        subst h
        exact hnd'.1 (by simpa using List.mem_map_of_mem Prod.fst hmem2)
      rw [List.find?_cons_of_neg (p := fun e => e.1 == id) (a := (i, d)) rest hne]
      exact find?_nodup_ids rest id c hnd'.2 hmem2

theorem handler_mem (s : State) (id : Nat) (c : Content)
    (hnd : (s.history.map Prod.fst).Nodup) (hmem : (id, c) ∈ s.history) :
    handler id s = some c := by
  unfold handler
  rw [find?_nodup_ids s.history id c hnd hmem]
  rfl

theorem get_matches_mem (scorer : Content → Content → Option Int) (input : Content)
    (s : State) (res : List MatchResult) (hres : get_matches scorer input s = some res)
    (m : MatchResult) (hm : m ∈ res) :
    ∃ c, (m.id, c) ∈ s.history ∧ preview c = some m.title := by
  simp only [get_matches] at hres
  by_cases hpre : s.prefixStr.isPrefixOf input
  · rw [if_pos hpre] at hres
    by_cases hemp : (input.drop s.prefixStr.length).isEmpty
    · rw [if_pos hemp] at hres
      by_cases hlen : s.max_entries ≤ s.history.length
      · rw [if_pos hlen] at hres
        obtain ⟨e, he, h1, h2⟩ := toMatches_mem _ res hres m hm
        have he2 : e ∈ s.history := List.take_subset _ _ he
        refine ⟨e.2, ?_, h2⟩
        have hpr : (m.id, e.2) = e := by
          rw [← h1]
        rw [hpr]
        exact he2
      · rw [if_neg hlen] at hres
        exact absurd hres (by simp)
    · rw [if_neg hemp] at hres
      obtain ⟨e, he, h1, h2⟩ := toMatches_mem _ res hres m hm
      obtain ⟨x, hx, hxe⟩ := List.mem_map.mp he
      simp only [topEntries, sortedEntries] at hx
      have hxr : x ∈ rankEntries scorer (input.drop s.prefixStr.length) s.history := by
        have hmem2 := List.take_subset _ _ hx
        simpa using hmem2
      obtain ⟨hmem, hpos, hsc⟩ := rankEntries_mem scorer _ s.history x hxr
      refine ⟨x.2.1, ?_, ?_⟩
      · have hid : m.id = x.1 := by rw [← h1, ← hxe]
        rw [hid]
        exact hmem
      · have he2 : e.2 = x.2.1 := by rw [← hxe]
        rw [← he2]
        exact h2
  · rw [if_neg hpre] at hres
    cases Option.some.inj hres
    exact absurd hm (List.not_mem_nil m)

/-- Claim C4: whenever get_matches returns a result list against a store
whose entry ids are pairwise distinct (as every loaded store is), each
returned id resolves through handler to exactly the stored entry content it
was ranked from — resolving immediately after ranking never fails for a
valid id. -/
theorem claim_C4_rank_then_resolve (scorer : Content → Content → Option Int)
    (input : Content) (s : State)
    (hids : (s.history.map Prod.fst).Nodup)
    (res : List MatchResult) (hres : get_matches scorer input s = some res) :
    ∀ m ∈ res, ∃ c, (m.id, c) ∈ s.history ∧ handler m.id s = some c := by
  intro m hm
  obtain ⟨c, hmem, _⟩ := get_matches_mem scorer input s res hres m hm
  exact ⟨c, hmem, handler_mem s m.id c hids hmem⟩

theorem claim_C4_witness :
    (([(0, ['a'])] : List (Nat × Content)).map Prod.fst).Nodup ∧
    get_matches (fun _ _ => some 1) ['x'] ⟨1, [], [(0, ['a'])]⟩ =
      some [{ title := ['a'], id := 0 }] ∧
    (∀ m ∈ [{ title := ['a'], id := 0 }],
      ∃ c, (MatchResult.id m, c) ∈ ([(0, ['a'])] : List (Nat × Content)) ∧
        handler (MatchResult.id m) ⟨1, [], [(0, ['a'])]⟩ = some c) :=
  ⟨by decide, by decide,
    claim_C4_rank_then_resolve (fun _ _ => some 1) ['x'] ⟨1, [], [(0, ['a'])]⟩
      (by decide) [{ title := ['a'], id := 0 }] (by decide)⟩

/-- Claim C6: for a non-empty effective search term, get_matches keeps
exactly the entries with a strictly positive fuzzy score (a score of 0 or a
failed match — None, unwrapped to 0 — is excluded), sorts survivors by score
descending with a stable sort (equal scores keep their original
most-recent-first relative order), and truncates to the limit. The fuzzy
scorer itself is the external fuzzy_matcher crate and enters as the abstract
parameter. -/
theorem claim_C6_filter_sort_truncate (scorer : Content → Content → Option Int)
    (input : Content) (s : State)
    (hpre : s.prefixStr.isPrefixOf input = true)
    (hne : (input.drop s.prefixStr.length).isEmpty = false) :
    get_matches scorer input s =
      toMatches ((topEntries scorer (input.drop s.prefixStr.length) s.history
        s.max_entries).map (fun x => (x.1, x.2.1))) ∧
    (∀ x ∈ topEntries scorer (input.drop s.prefixStr.length) s.history s.max_entries,
      0 < x.2.2 ∧ (x.1, x.2.1) ∈ s.history ∧
        x.2.2 = (scorer x.2.1 (input.drop s.prefixStr.length)).getD 0) ∧
    (∀ e ∈ s.history, (scorer e.2 (input.drop s.prefixStr.length)).getD 0 ≤ 0 →
      ∀ x ∈ topEntries scorer (input.drop s.prefixStr.length) s.history s.max_entries,
        (x.1, x.2.1) ≠ e) ∧
    (topEntries scorer (input.drop s.prefixStr.length) s.history
      s.max_entries).Pairwise scoreGe ∧
    (∀ a b : Nat × Content × Int,
      [a, b].Sublist (rankEntries scorer (input.drop s.prefixStr.length) s.history) →
      a.2.2 = b.2.2 →
      [a, b].Sublist (sortedEntries scorer (input.drop s.prefixStr.length) s.history)) ∧
    (topEntries scorer (input.drop s.prefixStr.length) s.history
      s.max_entries).length ≤ s.max_entries := by
  refine ⟨?_, ?_, ?_, ?_, ?_, ?_⟩
  · simp only [get_matches, hpre, hne]
    rfl
  · intro x hx
    simp only [topEntries, sortedEntries] at hx
    have hxr : x ∈ rankEntries scorer (input.drop s.prefixStr.length) s.history := by
      have hmem2 := List.take_subset _ _ hx
      simpa using hmem2
    obtain ⟨hmem, hpos, hsc⟩ := rankEntries_mem scorer _ s.history x hxr
    exact ⟨hpos, hmem, hsc⟩
  · intro e he hsc x hx heq
    simp only [topEntries, sortedEntries] at hx
    have hxr : x ∈ rankEntries scorer (input.drop s.prefixStr.length) s.history := by
      have hmem2 := List.take_subset _ _ hx
      simpa using hmem2
    obtain ⟨hmem, hpos, hxsc⟩ := rankEntries_mem scorer _ s.history x hxr
    have he2 : e.2 = x.2.1 := by rw [← heq]
    rw [hxsc, ← he2] at hpos
    exact absurd hsc (not_le.mpr hpos)
  · exact (List.sorted_insertionSort scoreGe _).sublist (List.take_sublist _ _)
  · intro a b hab heq
    exact List.pair_sublist_insertionSort (le_of_eq heq.symm) hab
  · simp only [topEntries]
    rw [List.length_take]
    exact min_le_left _ _

theorem claim_C6_witness :
    (([] : Content).isPrefixOf ['x'] = true) ∧
    ((['x'] : Content).isEmpty = false) ∧
    (get_matches (fun _ _ => some 1) ['x'] ⟨1, [], [(0, ['a'])]⟩ =
      toMatches ((topEntries (fun _ _ => some 1) ['x'] [(0, ['a'])] 1).map
        (fun x => (x.1, x.2.1))) ∧
    (∀ x ∈ topEntries (fun _ _ => some 1) ['x'] [(0, ['a'])] 1,
      0 < x.2.2 ∧ (x.1, x.2.1) ∈ ([(0, ['a'])] : List (Nat × Content)) ∧
        x.2.2 = ((fun _ _ => some (1 : Int)) x.2.1 ['x']).getD 0) ∧
    (∀ e ∈ ([(0, ['a'])] : List (Nat × Content)),
      ((fun _ _ => some (1 : Int)) e.2 ['x']).getD 0 ≤ 0 →
      ∀ x ∈ topEntries (fun _ _ => some 1) ['x'] [(0, ['a'])] 1,
        (x.1, x.2.1) ≠ e) ∧
    (topEntries (fun _ _ => some 1) ['x'] [(0, ['a'])] 1).Pairwise scoreGe ∧
    (∀ a b : Nat × Content × Int,
      [a, b].Sublist (rankEntries (fun _ _ => some 1) ['x'] [(0, ['a'])]) →
      a.2.2 = b.2.2 →
      [a, b].Sublist (sortedEntries (fun _ _ => some 1) ['x'] [(0, ['a'])])) ∧
    (topEntries (fun _ _ => some 1) ['x'] [(0, ['a'])] 1).length ≤ 1) :=
  ⟨rfl, rfl,
    claim_C6_filter_sort_truncate (fun _ _ => some 1) ['x'] ⟨1, [], [(0, ['a'])]⟩
      rfl rfl⟩

/-- Claim C7: whenever the query does not start with the configured
activation marker, get_matches returns the empty result list, for any store
and any limit. -/
theorem claim_C7_gating (scorer : Content → Content → Option Int) (input : Content)
    (s : State) (h : s.prefixStr.isPrefixOf input = false) :
    get_matches scorer input s = some [] := by
  simp only [get_matches, h]
  rfl

theorem claim_C7_witness :
    ((['x'] : Content).isPrefixOf [] = false) ∧
    get_matches (fun _ _ => none) [] ⟨10, ['x'], [(0, ['a'])]⟩ = some [] :=
  ⟨rfl, claim_C7_gating (fun _ _ => none) [] ⟨10, ['x'], [(0, ['a'])]⟩ rfl⟩

/-- Claim C8: a missing configuration file (read failure) and a malformed
configuration file (parse failure) both make load_config fall back to the
default configuration — max_entries Some 10, empty activation marker, no
db_path override — instead of failing, so configuration errors never abort
startup. -/
theorem claim_C8_config_fallback (r : Option (Option Config))
    (h : r = none ∨ r = some none) :
    load_config r = Config.defaultConfig ∧
    Config.defaultConfig.max_entries = some 10 ∧
    Config.defaultConfig.prefixStr = some [] ∧
    Config.defaultConfig.db_path = none := by
  refine ⟨?_, rfl, rfl, rfl⟩
  rcases h with rfl | rfl <;> rfl

theorem claim_C8_witness :
    ((none : Option (Option Config)) = none ∨
      (none : Option (Option Config)) = some none) ∧
    (load_config none = Config.defaultConfig ∧
      Config.defaultConfig.max_entries = some 10 ∧
      Config.defaultConfig.prefixStr = some [] ∧
      Config.defaultConfig.db_path = none) :=
  ⟨Or.inl rfl, claim_C8_config_fallback none (Or.inl rfl)⟩

/-- Claim C9: get_matches is deterministic — its output depends only on the
query and the store fields, so two calls with the same query against states
holding the same limit, marker and history produce identical results. -/
theorem claim_C9_rank_deterministic (scorer : Content → Content → Option Int)
    (input : Content) (s1 s2 : State)
    (hmax : s1.max_entries = s2.max_entries)
    (hpre : s1.prefixStr = s2.prefixStr)
    (hhist : s1.history = s2.history) :
    get_matches scorer input s1 = get_matches scorer input s2 := by
  cases s1
  cases s2
  cases hmax
  cases hpre
  cases hhist
  rfl

theorem claim_C9_witness :
    ((⟨1, [], [(0, ['a'])]⟩ : State).max_entries =
      (⟨1, [], [(0, ['a'])]⟩ : State).max_entries) ∧
    get_matches (fun _ _ => some 1) ['x'] ⟨1, [], [(0, ['a'])]⟩ =
      get_matches (fun _ _ => some 1) ['x'] ⟨1, [], [(0, ['a'])]⟩ :=
  ⟨rfl,
    claim_C9_rank_deterministic (fun _ _ => some 1) ['x']
      ⟨1, [], [(0, ['a'])]⟩ ⟨1, [], [(0, ['a'])]⟩ rfl rfl rfl⟩

end Cliphist
